import Mathlib

/-!
Verification development for the lattice model generator
`Generate_lattice.py` (willowbk/pathman).

The Python source is shallowly embedded: the pure numeric functions
`Find_Rate`, `Find_Energy`, `Exponential_Moment` become functions over
`ℝ`; the mutating dictionaries of `main` become association lists with
most-recent-write-first lookup; the lattice iteration becomes an
explicit fold over the odometer-generated site list.  Python string
keys (`"x1_x2_..."` and `"site->nn"`) are modelled by the coordinate
lists themselves and pairs of them, justified by the proved
injectivity of the key encoding (`decodeSite_encodeSite`); the
character-level encoding and splitting of keys is modelled separately
over `List Char` for the round-trip law.  The fallible float division
`1./rate_total` (Python raises `ZeroDivisionError` on a zero divisor)
is modelled with `Except`.
-/

namespace Pathman

/-- `Find_Rate(beta, Ei, Ef, Gamma_0)` from the source:
`deltaE = Ef - Ei; Gamma = Gamma_0*min([1, math.exp(-deltaE*beta)])`. -/
noncomputable def Find_Rate (beta Ei Ef Gamma_0 : ℝ) : ℝ :=
  Gamma_0 * min 1 (Real.exp (-(Ef - Ei) * beta))

/-- `Find_Energy(E_0, position)` from the source: `E_0*sum(position)`.
Positions are lists of lattice coordinates (natural numbers). -/
def Find_Energy (E_0 : ℝ) (position : List ℕ) : ℝ :=
  E_0 * (position.sum : ℝ)

/-- `Exponential_Moment(n, tau)` from the source:
`scipy.misc.factorial(n)*(tau**n)`. -/
def Exponential_Moment (n : ℕ) (tau : ℝ) : ℝ :=
  (n.factorial : ℝ) * tau ^ n

/-! ## Lattice enumeration (the odometer loop of `main`)

`main` starts from `position = numpy.ones(D)` and, after recording each
site, advances `position` by the carry loop

    shift = True
    for j in range(D):
        if shift: position[j] = position[j] + 1
        if position[j] > L: position[j] = 1; shift = True
        else: shift = False
-/

/-- One pass of the carry loop over the remaining components, with the
current value of the `shift` flag. -/
def stepFrom (L : ℕ) : Bool → List ℕ → List ℕ
  | _, [] => []
  | shift, x :: xs =>
    if L < (if shift then x + 1 else x) then 1 :: stepFrom L true xs
    else (if shift then x + 1 else x) :: stepFrom L false xs

/-- The full odometer step (`shift` starts out `True`). -/
def step (L : ℕ) (pos : List ℕ) : List ℕ := stepFrom L true pos

/-- The sequence of positions visited by `for i in range(n)`: record the
current position, then advance it. -/
def iterSites (L : ℕ) : List ℕ → ℕ → List (List ℕ)
  | _, 0 => []
  | pos, n + 1 => pos :: iterSites L (step L pos) n

/-- All `L^D` positions visited by the main loop, in visit order. -/
def enumSites (L D : ℕ) : List (List ℕ) :=
  iterSites L (List.replicate D 1) (L ^ D)

/-- The mixed-radix (base `L`, offset 1) digits of `i`: component `k` is
`1 + i / L^k % L`, component `0` varying fastest. -/
def posOf (L : ℕ) : ℕ → ℕ → List ℕ
  | 0, _ => []
  | D + 1, i => (1 + i % L) :: posOf L D (i / L)

/-! ## Site keys

`main` names a site by `"_".join([str(int(k)) for k in position])` and
decodes a key by `[int(c) for c in key.split('_')]`.  Python strings
are modelled as `List Char`; decimal rendering of a coordinate uses
`Nat.digits` (most significant digit first, `"0"` for zero). -/

/-- The character of a decimal digit (`'0'`..`'9'`). -/
def digitChar (d : ℕ) : Char := Char.ofNat (48 + d)

/-- `str(int(k))`: decimal rendering of a coordinate. -/
def natChars (n : ℕ) : List Char :=
  if n = 0 then ['0'] else ((Nat.digits 10 n).map digitChar).reverse

/-- `"_".join(parts)`. -/
def joinSep : List (List Char) → List Char
  | [] => []
  | [p] => p
  | p :: ps => p ++ '_' :: joinSep ps

/-- `key.split('_')`. -/
def splitSep : List Char → List (List Char)
  | [] => [[]]
  | c :: cs =>
    if c = '_' then [] :: splitSep cs
    else
      match splitSep cs with
      | [] => [[c]]
      | p :: ps => (c :: p) :: ps

/-- The site key of a coordinate vector. -/
def encodeSite (pos : List ℕ) : List Char := joinSep (pos.map natChars)

/-- `int(...)` on a single character, when it is a decimal digit. -/
def parseDigit (c : Char) : Option ℕ :=
  if 48 ≤ c.toNat ∧ c.toNat ≤ 57 then some (c.toNat - 48) else none

def parseDigitList : List Char → Option (List ℕ)
  | [] => some []
  | c :: cs =>
    match parseDigit c, parseDigitList cs with
    | some d, some ds => some (d :: ds)
    | _, _ => none

/-- `int(s)` on a piece of a key: defined (as a natural number) exactly
on nonempty all-digit strings. -/
def parseNat (cs : List Char) : Option ℕ :=
  if cs = [] then none
  else (parseDigitList cs).map (List.foldl (fun a d => 10 * a + d) 0)

/-- Splitting a key on the separator and parsing each piece. -/
def decodeSite (key : List Char) : List (Option ℕ) :=
  (splitSep key).map parseNat

/-! ## The lattice-construction loop of `main` (generate mode)

The two Python dictionaries are modelled as association lists with
most-recent-write-first lookup.  `trans_rates` is keyed by the pair of
endpoint coordinates (faithful to the `"site->nn"` string keys by
`encodeSite_inj`, since site keys never contain the characters of the
arrow).  `energies` holds both plain site keys and, for invalid
directions, `"site->nn"` edge keys, modelled by a sum type. -/

/-- Lookup in a Python dictionary modelled as a most-recent-write-first
association list. -/
def dget {K : Type} [DecidableEq K] (k : K) : List (K × ℝ) → Option ℝ
  | [] => none
  | e :: es => if e.1 = k then some e.2 else dget k es

/-- Dictionary assignment `d[k] = v`: later writes shadow earlier ones. -/
def dset {K : Type} [DecidableEq K] (k : K) (v : ℝ) (d : List (K × ℝ)) :
    List (K × ℝ) :=
  (k, v) :: d

/-- The run parameters of `main` used by the construction loop. -/
structure Cfg where
  L : ℕ
  D : ℕ
  pbcheck : Bool
  beta : ℝ
  E_0 : ℝ
  Gamma_0 : ℝ

/-- `position[k] + increment` on the perturbed axis: `increment` is `+1`
for even directions and `-1` for odd ones. -/
def rawStep (v : ℕ) (plus : Bool) : ℕ := if plus then v + 1 else v - 1

/-- The comprehension
`[position[k]+(k == int(j/2))*increment for k in range(len(position))]`:
perturb component `a` by `±1`; the extra argument is the index of the
head of the remaining list. -/
def perturb (a : ℕ) (plus : Bool) : ℕ → List ℕ → List ℕ
  | _, [] => []
  | k, v :: vs => (if k = a then rawStep v plus else v) :: perturb a plus (k + 1) vs

/-- The periodic wrapping formula applied to one component `v`:
`int(v)*int(v<L+1)*int(v>0)+L*int(v==0)+int(v==L+1)`. -/
def wrapVal (L v : ℕ) : ℕ :=
  (if 0 < v ∧ v < L + 1 then v else 0) + (if v = 0 then L else 0) +
    (if v = L + 1 then 1 else 0)

/-- The neighbor coordinate for direction `j` (axis `j/2`, sign given by
the parity of `j`) under the configured boundary policy; the periodic
branch applies the wrapping formula to every component. -/
def neighborCoord (cfg : Cfg) (pos : List ℕ) (j : ℕ) : List ℕ :=
  if cfg.pbcheck then (perturb (j / 2) (j % 2 == 0) 0 pos).map (wrapVal cfg.L)
  else perturb (j / 2) (j % 2 == 0) 0 pos

/-- The validity test of the source:
`(position[int(j/2)]+increment > 0 and ... < L+1) or pbcheck`. -/
def validDir (L : ℕ) (pb : Bool) (pos : List ℕ) (j : ℕ) : Bool :=
  (decide (0 < rawStep (pos.getD (j / 2) 0) (j % 2 == 0)) &&
    decide (rawStep (pos.getD (j / 2) 0) (j % 2 == 0) < L + 1)) || pb

/-- Keys of the `energies` dictionary: site keys, or the `"site->nn"`
edge keys written for invalid directions. -/
abbrev EKey : Type := List ℕ ⊕ (List ℕ × List ℕ)

/-- The mutable state of the construction loop. -/
structure BuildState where
  trans_rates : List ((List ℕ × List ℕ) × ℝ)
  energies : List (EKey × ℝ)

def initState : BuildState := ⟨[], []⟩

/-- The body of the inner `for j in range(2*D)` loop in generate mode:
a valid direction records both site energies and both directed rates;
an invalid one records zero rates and zero edge energies. -/
noncomputable def processDir (cfg : Cfg) (pos : List ℕ) (st : BuildState)
    (j : ℕ) : BuildState :=
  let nn := neighborCoord cfg pos j
  if validDir cfg.L cfg.pbcheck pos j then
    let Ei := Find_Energy cfg.E_0 pos
    let Ef := Find_Energy cfg.E_0 nn
    { trans_rates :=
        dset (nn, pos) (Find_Rate cfg.beta Ef Ei cfg.Gamma_0)
          (dset (pos, nn) (Find_Rate cfg.beta Ei Ef cfg.Gamma_0) st.trans_rates),
      energies := dset (Sum.inl nn) Ef (dset (Sum.inl pos) Ei st.energies) }
  else
    { trans_rates := dset (nn, pos) 0 (dset (pos, nn) 0 st.trans_rates),
      energies :=
        dset (Sum.inr (nn, pos)) 0 (dset (Sum.inr (pos, nn)) 0 st.energies) }

/-- One iteration of the outer site loop: record the zero self-loop rate
`trans_rates[site+"->"+site] = 0.0`, then process the `2*D` directions
in order. -/
noncomputable def processSite (cfg : Cfg) (st : BuildState) (pos : List ℕ) :
    BuildState :=
  (List.range (2 * cfg.D)).foldl (processDir cfg pos)
    { st with trans_rates := dset (pos, pos) 0 st.trans_rates }

/-- The state after the whole lattice-construction loop. -/
noncomputable def finalState (cfg : Cfg) : BuildState :=
  (enumSites cfg.L cfg.D).foldl (processSite cfg) initState

/-- The `2*D` neighbor keys recorded in `list_of_nn[site]` (valid or
not). -/
def neighborsOf (cfg : Cfg) (pos : List ℕ) : List (List ℕ) :=
  (List.range (2 * cfg.D)).map (neighborCoord cfg pos)

/-- `rate_total`: the sum of `trans_rates[site+"->"+nn]` over the
recorded neighbor list (a missing key reads as 0; in every reachable
state all the listed keys are present). -/
noncomputable def rateTotal (cfg : Cfg) (pos : List ℕ) : ℝ :=
  ((neighborsOf cfg pos).map
    (fun nn => (dget (pos, nn) (finalState cfg).trans_rates).getD 0)).sum

/-- Python float division `x / y`: raises `ZeroDivisionError` on a zero
divisor, modelled with `Except`. -/
noncomputable def pyDiv (x y : ℝ) : Except Unit ℝ :=
  if y = 0 then Except.error () else Except.ok (x / y)

/-- `[Exponential_Moment(n, 1./rate_total) for n in range(1, max_moment+1)]`. -/
noncomputable def siteMoments (max_moment : ℕ) (rate_total : ℝ) :
    Except Unit (List ℝ) :=
  (List.range' 1 max_moment).mapM
    (fun n => (pyDiv 1 rate_total).map (Exponential_Moment n))

/-- One `.network` row: site key, positive-rate neighbor entries,
waiting-time moments, coordinate components. -/
structure SiteRecord where
  site : List ℕ
  edges : List (List ℕ × ℝ)
  moments : List ℝ
  coords : List ℕ

noncomputable def siteRecordOf (cfg : Cfg) (max_moment : ℕ) (pos : List ℕ) :
    Except Unit SiteRecord :=
  (siteMoments max_moment (rateTotal cfg pos)).map fun ms =>
    { site := pos,
      edges := (neighborsOf cfg pos).filterMap fun nn =>
        let r := (dget (pos, nn) (finalState cfg).trans_rates).getD 0
        if 0 < r then some (nn, r) else none,
      moments := ms,
      coords := pos }

/-- All `.network` rows in enumeration order; `Except.error` models the
uncaught `ZeroDivisionError`. -/
noncomputable def networkRecords (cfg : Cfg) (max_moment : ℕ) :
    Except Unit (List SiteRecord) :=
  (enumSites cfg.L cfg.D).mapM (siteRecordOf cfg max_moment)

/-- `Check_Args` exits iff `lattice_size == 0` or `dimension <= 0`; a
negative lattice size passes the check. -/
def checkArgsExits (L D : ℤ) : Bool := (L == 0) || decide (D ≤ 0)

/-- The program in generate mode: check the arguments, then build the
lattice and produce the network rows. -/
noncomputable def runProgram (L D : ℤ) (max_moment : ℕ) (pb : Bool)
    (beta E_0 Gamma_0 : ℝ) : Except Unit (List SiteRecord) :=
  if checkArgsExits L D then Except.error ()
  else networkRecords ⟨L.toNat, D.toNat, pb, beta, E_0, Gamma_0⟩ max_moment

/-- A coordinate vector is a lattice site: every component in `[1, L]`. -/
def validSite (L : ℕ) (pos : List ℕ) : Prop := ∀ x ∈ pos, 1 ≤ x ∧ x ≤ L

instance validSite.decidable (L : ℕ) (l : List ℕ) : Decidable (validSite L l) :=
  List.decidableBAll _ l

/-- `B` is reachable from `A` by a valid direction of the neighbor
resolver. -/
def adjacentTo (cfg : Cfg) (A B : List ℕ) : Prop :=
  ∃ j, j < 2 * cfg.D ∧ validDir cfg.L cfg.pbcheck A j = true ∧
    neighborCoord cfg A j = B

/-- Stated from the spec's words for claim C5: the sum of the final
rates over the valid neighbor edges only, with self-loop entries
excluded. -/
noncomputable def validNonSelfTotal (cfg : Cfg) (pos : List ℕ) : ℝ :=
  (((List.range (2 * cfg.D)).filter fun j =>
      validDir cfg.L cfg.pbcheck pos j && !(neighborCoord cfg pos j == pos)).map
    fun j =>
      (dget (pos, neighborCoord cfg pos j) (finalState cfg).trans_rates).getD 0).sum

/-- The shape of every `trans_rates` write performed while processing
site `pos`: the zero self-loop write, the pair of `Find_Rate` writes of
a valid direction, or the pair of zero writes of an invalid one. -/
def ProcWrite (cfg : Cfg) (pos : List ℕ) (e : (List ℕ × List ℕ) × ℝ) : Prop :=
  e = ((pos, pos), 0) ∨
  ∃ j, j < 2 * cfg.D ∧
    ((validDir cfg.L cfg.pbcheck pos j = true ∧
       (e = ((pos, neighborCoord cfg pos j),
          Find_Rate cfg.beta (Find_Energy cfg.E_0 pos)
            (Find_Energy cfg.E_0 (neighborCoord cfg pos j)) cfg.Gamma_0) ∨
        e = ((neighborCoord cfg pos j, pos),
          Find_Rate cfg.beta (Find_Energy cfg.E_0 (neighborCoord cfg pos j))
            (Find_Energy cfg.E_0 pos) cfg.Gamma_0))) ∨
     (validDir cfg.L cfg.pbcheck pos j = false ∧
       (e = ((pos, neighborCoord cfg pos j), 0) ∨
        e = ((neighborCoord cfg pos j, pos), 0))))

/-- The shape of every `energies` write in generate mode: a site key
always carries `Find_Energy` of its own coordinate; an edge key always
carries `0`. -/
def EnergyWrite (cfg : Cfg) (e : EKey × ℝ) : Prop :=
  (∃ c, e = (Sum.inl c, Find_Energy cfg.E_0 c)) ∨
  (∃ k, e = (Sum.inr k, 0))

theorem posOf_length (L D i : ℕ) : (posOf L D i).length = D := by
  induction D generalizing i with
  | zero => rfl
  | succ D ih => simp [posOf, ih]

theorem posOf_mem_bounds (L : ℕ) (hL : 0 < L) :
    ∀ D i, ∀ x ∈ posOf L D i, 1 ≤ x ∧ x ≤ L := by
  intro D
  induction D with
  | zero => intro i x hx; simp [posOf] at hx
  | succ D ih =>
    intro i x hx
    rcases List.mem_cons.mp hx with h | h
    · subst h
      have := Nat.mod_lt i hL
      omega
    · exact ih _ x h

theorem posOf_zero (L D : ℕ) : posOf L D 0 = List.replicate D 1 := by
  induction D with
  | zero => rfl
  | succ D ih => simp [posOf, List.replicate_succ, ih]

theorem posOf_getD (L : ℕ) :
    ∀ D i k, k < D → (posOf L D i).getD k 0 = 1 + i / L ^ k % L := by
  intro D
  induction D with
  | zero => intro i k hk; omega
  | succ D ih =>
    intro i k hk
    match k with
    | 0 => simp [posOf]
    | k + 1 =>
      show (posOf L D (i / L)).getD k 0 = _
      rw [ih (i / L) k (by omega)]
      congr 2
      rw [Nat.div_div_eq_div_mul, pow_succ, mul_comm (L ^ k) L, mul_comm L (L ^ k)]

/-- On a position whose components are all `≤ L`, a pass with the shift
flag already cleared leaves the position unchanged. -/
theorem stepFrom_false_eq (L : ℕ) :
    ∀ p, (∀ x ∈ p, x ≤ L) → stepFrom L false p = p := by
  intro p
  induction p with
  | nil => intro _; rfl
  | cons x xs ih =>
    intro h
    have hx : ¬ L < x := by
      have := h x (List.mem_cons_self x xs)
      omega
    show (if L < x then 1 :: stepFrom L true xs else x :: stepFrom L false xs)
      = x :: xs
    rw [if_neg hx, ih fun y hy => h y (List.mem_cons_of_mem x hy)]

/-- The odometer step realizes `i ↦ i + 1` on mixed-radix digits. -/
theorem step_posOf (L : ℕ) (hL : 0 < L) :
    ∀ D i, step L (posOf L D i) = posOf L D (i + 1) := by
  intro D
  induction D with
  | zero => intro i; rfl
  | succ D ih =>
    intro i
    have hmlt : i % L < L := Nat.mod_lt i hL
    have hiL : i + 1 = (i % L + 1) + L * (i / L) := by
      have h := Nat.div_add_mod i L
      omega
    by_cases hc : i % L + 1 = L
    · have hmod : (i + 1) % L = 0 := by
        rw [hiL, Nat.add_mul_mod_self_left, hc, Nat.mod_self]
      have hdiv : (i + 1) / L = i / L + 1 := by
        rw [hiL, Nat.add_mul_div_left _ _ hL, hc, Nat.div_self hL, Nat.add_comm]
      show stepFrom L true ((1 + i % L) :: posOf L D (i / L)) = _
      rw [stepFrom, if_pos (show L < _ by show L < 1 + i % L + 1; omega)]
      show 1 :: step L (posOf L D (i / L)) = _
      rw [ih, posOf, hmod, hdiv]
    · have hlt : i % L + 1 < L := by omega
      have hmod : (i + 1) % L = i % L + 1 := by
        rw [hiL, Nat.add_mul_mod_self_left, Nat.mod_eq_of_lt hlt]
      have hdiv : (i + 1) / L = i / L := by
        rw [hiL, Nat.add_mul_div_left _ _ hL, Nat.div_eq_of_lt hlt, Nat.zero_add]
      show stepFrom L true ((1 + i % L) :: posOf L D (i / L)) = _
      rw [stepFrom, if_neg (show ¬ L < _ by show ¬ L < 1 + i % L + 1; omega)]
      rw [stepFrom_false_eq L _ fun x hx => (posOf_mem_bounds L hL D (i / L) x hx).2]
      rw [posOf, hmod, hdiv]
      refine congrArg₂ List.cons ?_ rfl
      show 1 + i % L + 1 = 1 + (i % L + 1)
      omega

theorem posOf_inj (L : ℕ) (hL : 0 < L) :
    ∀ D i j, i < L ^ D → j < L ^ D → posOf L D i = posOf L D j → i = j := by
  intro D
  induction D with
  | zero =>
    intro i j hi hj _
    simp [pow_zero] at hi hj
    omega
  | succ D ih =>
    intro i j hi hj h
    rw [posOf, posOf, List.cons.injEq] at h
    have hdi : i / L < L ^ D := by
      rw [Nat.div_lt_iff_lt_mul hL]
      calc i < L ^ (D + 1) := hi
        _ = L ^ D * L := pow_succ L D
    have hdj : j / L < L ^ D := by
      rw [Nat.div_lt_iff_lt_mul hL]
      calc j < L ^ (D + 1) := hj
        _ = L ^ D * L := pow_succ L D
    obtain ⟨h1, htl⟩ := h
    have h2 := ih (i / L) (j / L) hdi hdj htl
    have h3 := Nat.div_add_mod i L
    have h4 := Nat.div_add_mod j L
    rw [h2] at h3
    omega

theorem iterSites_posOf (L : ℕ) (hL : 0 < L) (D : ℕ) :
    ∀ n i, iterSites L (posOf L D i) n =
      (List.range n).map (fun t => posOf L D (i + t)) := by
  intro n
  induction n with
  | zero => intro i; rfl
  | succ n ih =>
    intro i
    rw [iterSites, step_posOf L hL, ih, List.range_succ_eq_map,
      List.map_cons, List.map_map]
    refine congrArg₂ _ (by rw [Nat.add_zero]) ?_
    refine List.map_congr_left fun t _ => ?_
    show posOf L D (i + 1 + t) = posOf L D (i + (t + 1))
    rw [Nat.add_right_comm, Nat.add_assoc]

/-- The main loop visits exactly the mixed-radix digit sequences of
`0, 1, ..., L^D - 1`, in that order. -/
theorem enumSites_eq (L D : ℕ) (hL : 0 < L) :
    enumSites L D = (List.range (L ^ D)).map (posOf L D) := by
  rw [enumSites, ← posOf_zero, iterSites_posOf L hL]
  exact List.map_congr_left fun t _ => by rw [Nat.zero_add]

theorem parseDigit_digitChar : ∀ d, d < 10 → parseDigit (digitChar d) = some d := by
  decide

theorem digitChar_ne_sep : ∀ d, d < 10 → digitChar d ≠ '_' := by
  decide

theorem sep_not_mem_natChars (n : ℕ) : '_' ∉ natChars n := by
  rw [natChars]
  by_cases h : n = 0
  · rw [if_pos h]
    decide
  · rw [if_neg h]
    intro hmem
    rw [List.mem_reverse] at hmem
    obtain ⟨d, hd, hc⟩ := List.mem_map.mp hmem
    exact digitChar_ne_sep d (Nat.digits_lt_base (by norm_num) hd) hc

theorem natChars_ne_nil (n : ℕ) : natChars n ≠ [] := by
  rw [natChars]
  by_cases h : n = 0
  · rw [if_pos h]; simp
  · rw [if_neg h]
    simp [Nat.digits_ne_nil_iff_ne_zero.mpr h]

theorem splitSep_append : ∀ p r : List Char, '_' ∉ p → ∀ q qs,
    splitSep r = q :: qs → splitSep (p ++ r) = (p ++ q) :: qs := by
  intro p
  induction p with
  | nil => intro r _ q qs h; simpa using h
  | cons c p ih =>
    intro r hp q qs h
    rw [List.mem_cons, not_or] at hp
    have hc : ¬ c = '_' := fun hcc => hp.1 hcc.symm
    show splitSep (c :: (p ++ r)) = ((c :: p) ++ q) :: qs
    rw [splitSep, if_neg hc, ih r hp.2 q qs h]
    rfl

theorem splitSep_joinSep : ∀ parts : List (List Char),
    (∀ p ∈ parts, '_' ∉ p) → parts ≠ [] → splitSep (joinSep parts) = parts := by
  intro parts
  induction parts with
  | nil => intro _ h; exact absurd rfl h
  | cons p ps ih =>
    intro hsep _
    cases ps with
    | nil =>
      have h := splitSep_append p [] (hsep p (by simp)) [] [] rfl
      simpa [joinSep] using h
    | cons q ps' =>
      have hJ : splitSep (joinSep (q :: ps')) = q :: ps' :=
        ih (fun x hx => hsep x (List.mem_cons_of_mem p hx)) (by simp)
      have hr : splitSep ('_' :: joinSep (q :: ps')) = [] :: q :: ps' := by
        rw [splitSep, if_pos rfl, hJ]
      have h := splitSep_append p ('_' :: joinSep (q :: ps'))
        (hsep p (List.mem_cons_self _ _)) [] (q :: ps') hr
      show splitSep (p ++ '_' :: joinSep (q :: ps')) = p :: q :: ps'
      rw [h, List.append_nil]

theorem parseDigitList_map : ∀ ds : List ℕ, (∀ d ∈ ds, d < 10) →
    parseDigitList (ds.map digitChar) = some ds := by
  intro ds
  induction ds with
  | nil => intro _; rfl
  | cons d ds ih =>
    intro h
    show parseDigitList (digitChar d :: ds.map digitChar) = _
    rw [parseDigitList, parseDigit_digitChar d (h d (by simp)),
      ih fun x hx => h x (List.mem_cons_of_mem d hx)]

theorem foldl_reverse_ofDigits : ∀ l : List ℕ, ∀ a : ℕ,
    List.foldl (fun a d => 10 * a + d) a l.reverse
      = a * 10 ^ l.length + Nat.ofDigits 10 l := by
  intro l
  induction l with
  | nil => intro a; simp [Nat.ofDigits_nil]
  | cons d ds ih =>
    intro a
    rw [List.reverse_cons, List.foldl_append, ih]
    simp only [List.foldl_cons, List.foldl_nil, Nat.ofDigits_cons, List.length_cons]
    ring

theorem parseNat_natChars (n : ℕ) : parseNat (natChars n) = some n := by
  by_cases h : n = 0
  · subst h; decide
  · have hne : natChars n ≠ [] := natChars_ne_nil n
    rw [parseNat, if_neg hne, natChars, if_neg h, ← List.map_reverse,
      parseDigitList_map ((Nat.digits 10 n).reverse)
        (fun d hd => Nat.digits_lt_base (by norm_num) (List.mem_reverse.mp hd)),
      Option.map_some', foldl_reverse_ofDigits, Nat.zero_mul, Nat.zero_add,
      Nat.ofDigits_digits]

/-- Decoding a site key recovers the coordinate (the round-trip law).
Nonemptiness is needed: for `D = 0` Python's `"".split('_')` gives
`[""]` and `int("")` raises. -/
theorem decodeSite_encodeSite (pos : List ℕ) (hpos : pos ≠ []) :
    decodeSite (encodeSite pos) = pos.map some := by
  rw [decodeSite, encodeSite,
    splitSep_joinSep (pos.map natChars)
      (fun p hp => by
        obtain ⟨x, _, hx⟩ := List.mem_map.mp hp
        rw [← hx]
        exact sep_not_mem_natChars x)
      (by simpa using hpos),
    List.map_map]
  exact List.map_congr_left fun x _ => parseNat_natChars x

/-- Site keys are in bijection with (nonempty) coordinate vectors; this
justifies keying the modelled dictionaries by the coordinate vectors
themselves rather than by the key strings. -/
theorem encodeSite_inj (p q : List ℕ) (hp : p ≠ []) (hq : q ≠ [])
    (h : encodeSite p = encodeSite q) : p = q := by
  have h2 := congrArg decodeSite h
  rw [decodeSite_encodeSite p hp, decodeSite_encodeSite q hq] at h2
  exact List.map_injective_iff.mpr (Option.some_injective ℕ) h2

theorem getD_range_map {α : Type} (f : ℕ → α) (dflt : α) (n i : ℕ) (h : i < n) :
    ((List.range n).map f).getD i dflt = f i := by
  simp [List.getD_eq_getElem?_getD, List.getElem?_map, List.getElem?_range, h]

/-- Claim C2: for `L ≥ 1` and `D ≥ 1` the lattice enumeration loop
visits exactly `L^D` pairwise-distinct coordinate vectors, each of
length `D` with every component in `[1, L]`, in mixed-radix (odometer)
order: the `i`-th visited vector has component `k` equal to
`1 + (i / L^k) % L`, so component `0` increments fastest and a
component resets to `1` and carries when it exceeds `L` (this is the
`step` function).  Splitting any yielded site key on the separator and
parsing the pieces recovers the original coordinate. -/
theorem C2_enumeration (L D : ℕ) (hL : 1 ≤ L) (hD : 1 ≤ D) :
    (enumSites L D).length = L ^ D ∧
    (enumSites L D).Nodup ∧
    (∀ p ∈ enumSites L D, p.length = D ∧ ∀ x ∈ p, 1 ≤ x ∧ x ≤ L) ∧
    (∀ i, i < L ^ D → ∀ k, k < D →
      ((enumSites L D).getD i []).getD k 0 = 1 + i / L ^ k % L) ∧
    (∀ p ∈ enumSites L D, decodeSite (encodeSite p) = p.map some) := by
  rw [enumSites_eq L D hL]
  refine ⟨by simp, ?_, ?_, ?_, ?_⟩
  · exact List.Nodup.map_on
      (fun i hi j hj h =>
        posOf_inj L hL D i j (List.mem_range.mp hi) (List.mem_range.mp hj) h)
      (List.nodup_range _)
  · intro p hp
    obtain ⟨i, _, hi⟩ := List.mem_map.mp hp
    rw [← hi]
    exact ⟨posOf_length L D i, posOf_mem_bounds L hL D i⟩
  · intro i hi k hk
    rw [getD_range_map _ _ _ _ hi, posOf_getD L D i k hk]
  · intro p hp
    obtain ⟨i, _, hi⟩ := List.mem_map.mp hp
    refine decodeSite_encodeSite p ?_
    rw [← hi]
    intro hnil
    have := posOf_length L D i
    rw [hnil] at this
    simp at this
    omega

/-- Witness for C2 on the concrete lattice `L = 2`, `D = 2`. -/
theorem C2_enumeration_witness :
    (enumSites 2 2).length = 2 ^ 2 ∧ (enumSites 2 2).Nodup :=
  ⟨(C2_enumeration 2 2 (by norm_num) (by norm_num)).1,
   (C2_enumeration 2 2 (by norm_num) (by norm_num)).2.1⟩

/-- Claim C1: the rate function computes
`Gamma = Gamma_0 * min(1, exp(-(E_final - E_initial)*beta))`; for
`deltaE = E_final - E_initial ≤ 0` (and nonnegative inverse
temperature) the returned rate equals `Gamma_0` exactly, for
`deltaE > 0` and `beta > 0` it is strictly below the (positive) bare
rate `Gamma_0`, and for `beta = 0` it equals `Gamma_0` regardless of
the energies. -/
theorem C1_rate_model (beta Ei Ef Gamma_0 : ℝ) :
    (0 ≤ beta → Ef - Ei ≤ 0 → Find_Rate beta Ei Ef Gamma_0 = Gamma_0) ∧
    (0 < beta → 0 < Ef - Ei → 0 < Gamma_0 →
      Find_Rate beta Ei Ef Gamma_0 < Gamma_0) ∧
    Find_Rate 0 Ei Ef Gamma_0 = Gamma_0 := by
  refine ⟨?_, ?_, ?_⟩
  · intro hb hd
    have h1 : (1 : ℝ) ≤ Real.exp (-(Ef - Ei) * beta) :=
      Real.one_le_exp (by nlinarith)
    rw [Find_Rate, min_eq_left h1, mul_one]
  · intro hb hd hg
    have h1 : Real.exp (-(Ef - Ei) * beta) < 1 :=
      Real.exp_lt_one_iff.mpr (by nlinarith)
    rw [Find_Rate, min_eq_right h1.le]
    nlinarith
  · simp [Find_Rate, mul_zero, Real.exp_zero]

/-- Witness for C1 at concrete parameters: downhill step
`(Ei, Ef) = (1, 0)` at `beta = 1`, uphill step `(0, 1)` at `beta = 1`,
and the `beta = 0` uniform limit. -/
theorem C1_rate_model_witness :
    Find_Rate 1 1 0 1 = 1 ∧ Find_Rate 1 0 1 1 < 1 ∧ Find_Rate 0 2 5 3 = 3 :=
  ⟨(C1_rate_model 1 1 0 1).1 (by norm_num) (by norm_num),
   (C1_rate_model 1 0 1 1).2.1 (by norm_num) (by norm_num) (by norm_num),
   (C1_rate_model 0 2 5 3).2.2⟩

theorem dget_eq_of_value {K : Type} [DecidableEq K] (k : K) (v : ℝ) :
    ∀ d : List (K × ℝ), (∀ e ∈ d, e.1 = k → e.2 = v) → (∃ e ∈ d, e.1 = k) →
      dget k d = some v := by
  intro d
  induction d with
  | nil => intro _ h; simp at h
  | cons e es ih =>
    intro hall hex
    rw [dget]
    by_cases hk : e.1 = k
    · rw [if_pos hk, hall e (List.mem_cons_self e es) hk]
    · rw [if_neg hk]
      refine ih (fun x hx hxk => hall x (List.mem_cons_of_mem e hx) hxk) ?_
      obtain ⟨x, hx, hxk⟩ := hex
      rcases List.mem_cons.mp hx with h | h
      · exact absurd (h ▸ hxk) hk
      · exact ⟨x, h, hxk⟩

theorem dget_some_mem {K : Type} [DecidableEq K] (k : K) (v : ℝ) :
    ∀ d : List (K × ℝ), dget k d = some v → (k, v) ∈ d := by
  intro d
  induction d with
  | nil => intro h; simp [dget] at h
  | cons e es ih =>
    intro h
    obtain ⟨k1, v1⟩ := e
    rw [dget] at h
    by_cases hk : (k1, v1).1 = k
    · rw [if_pos hk, Option.some.injEq] at h
      simp only at hk h
      rw [← hk, ← h]
      exact List.mem_cons_self _ _
    · rw [if_neg hk] at h
      exact List.mem_cons_of_mem _ (ih h)

theorem processDir_rates_sub (cfg : Cfg) (pos : List ℕ) (st : BuildState)
    (j : ℕ) (e : (List ℕ × List ℕ) × ℝ) (he : e ∈ st.trans_rates) :
    e ∈ (processDir cfg pos st j).trans_rates := by
  rw [processDir]
  split
  · exact List.mem_cons_of_mem _ (List.mem_cons_of_mem _ he)
  · exact List.mem_cons_of_mem _ (List.mem_cons_of_mem _ he)

theorem processDir_energies_sub (cfg : Cfg) (pos : List ℕ) (st : BuildState)
    (j : ℕ) (e : EKey × ℝ) (he : e ∈ st.energies) :
    e ∈ (processDir cfg pos st j).energies := by
  rw [processDir]
  split
  · exact List.mem_cons_of_mem _ (List.mem_cons_of_mem _ he)
  · exact List.mem_cons_of_mem _ (List.mem_cons_of_mem _ he)

theorem processDir_rates_mem (cfg : Cfg) (pos : List ℕ) (st : BuildState)
    (j : ℕ) (hj : j < 2 * cfg.D) (e : (List ℕ × List ℕ) × ℝ)
    (he : e ∈ (processDir cfg pos st j).trans_rates) :
    e ∈ st.trans_rates ∨ ProcWrite cfg pos e := by
  rw [processDir] at he
  by_cases hv : validDir cfg.L cfg.pbcheck pos j = true
  · rw [if_pos hv] at he
    rcases List.mem_cons.mp he with h | h
    · exact Or.inr (Or.inr ⟨j, hj, Or.inl ⟨hv, Or.inr h⟩⟩)
    · rcases List.mem_cons.mp h with h2 | h2
      · exact Or.inr (Or.inr ⟨j, hj, Or.inl ⟨hv, Or.inl h2⟩⟩)
      · exact Or.inl h2
  · rw [if_neg hv] at he
    rw [Bool.not_eq_true] at hv
    rcases List.mem_cons.mp he with h | h
    · exact Or.inr (Or.inr ⟨j, hj, Or.inr ⟨hv, Or.inr h⟩⟩)
    · rcases List.mem_cons.mp h with h2 | h2
      · exact Or.inr (Or.inr ⟨j, hj, Or.inr ⟨hv, Or.inl h2⟩⟩)
      · exact Or.inl h2

theorem processDir_energies_mem (cfg : Cfg) (pos : List ℕ) (st : BuildState)
    (j : ℕ) (e : EKey × ℝ) (he : e ∈ (processDir cfg pos st j).energies) :
    e ∈ st.energies ∨ EnergyWrite cfg e := by
  rw [processDir] at he
  by_cases hv : validDir cfg.L cfg.pbcheck pos j = true
  · rw [if_pos hv] at he
    rcases List.mem_cons.mp he with h | h
    · exact Or.inr (Or.inl ⟨neighborCoord cfg pos j, h⟩)
    · rcases List.mem_cons.mp h with h2 | h2
      · exact Or.inr (Or.inl ⟨pos, h2⟩)
      · exact Or.inl h2
  · rw [if_neg hv] at he
    rcases List.mem_cons.mp he with h | h
    · exact Or.inr (Or.inr ⟨_, h⟩)
    · rcases List.mem_cons.mp h with h2 | h2
      · exact Or.inr (Or.inr ⟨_, h2⟩)
      · exact Or.inl h2

theorem foldl_dirs_rates_sub (cfg : Cfg) (pos : List ℕ) :
    ∀ js : List ℕ, ∀ st : BuildState, ∀ e ∈ st.trans_rates,
      e ∈ (js.foldl (processDir cfg pos) st).trans_rates := by
  intro js
  induction js with
  | nil => intro st e he; exact he
  | cons j js ih =>
    intro st e he
    exact ih _ e (processDir_rates_sub cfg pos st j e he)

theorem foldl_dirs_rates_mem (cfg : Cfg) (pos : List ℕ) :
    ∀ js : List ℕ, (∀ j ∈ js, j < 2 * cfg.D) →
    ∀ st : BuildState, ∀ e ∈ (js.foldl (processDir cfg pos) st).trans_rates,
      e ∈ st.trans_rates ∨ ProcWrite cfg pos e := by
  intro js
  induction js with
  | nil => intro _ st e he; exact Or.inl he
  | cons j js ih =>
    intro hjs st e he
    rw [List.foldl_cons] at he
    rcases ih (fun x hx => hjs x (List.mem_cons_of_mem j hx)) _ e he with h | h
    · exact processDir_rates_mem cfg pos st j (hjs j (List.mem_cons_self j js)) e h
    · exact Or.inr h

theorem foldl_dirs_energies_mem (cfg : Cfg) (pos : List ℕ) :
    ∀ js : List ℕ, ∀ st : BuildState,
    ∀ e ∈ (js.foldl (processDir cfg pos) st).energies,
      e ∈ st.energies ∨ EnergyWrite cfg e := by
  intro js
  induction js with
  | nil => intro st e he; exact Or.inl he
  | cons j js ih =>
    intro st e he
    rw [List.foldl_cons] at he
    rcases ih _ e he with h | h
    · exact processDir_energies_mem cfg pos st j e h
    · exact Or.inr h

theorem processSite_rates_mem (cfg : Cfg) (st : BuildState) (pos : List ℕ)
    (e : (List ℕ × List ℕ) × ℝ) (he : e ∈ (processSite cfg st pos).trans_rates) :
    e ∈ st.trans_rates ∨ ProcWrite cfg pos e := by
  rw [processSite] at he
  rcases foldl_dirs_rates_mem cfg pos _ (fun j hj => List.mem_range.mp hj) _ e he
    with h | h
  · rcases List.mem_cons.mp h with h2 | h2
    · exact Or.inr (Or.inl h2)
    · exact Or.inl h2
  · exact Or.inr h

theorem processSite_energies_mem (cfg : Cfg) (st : BuildState) (pos : List ℕ)
    (e : EKey × ℝ) (he : e ∈ (processSite cfg st pos).energies) :
    e ∈ st.energies ∨ EnergyWrite cfg e := by
  rw [processSite] at he
  rcases foldl_dirs_energies_mem cfg pos _ _ e he with h | h
  · exact Or.inl h
  · exact Or.inr h

theorem processSite_rates_sub (cfg : Cfg) (st : BuildState) (pos : List ℕ)
    (e : (List ℕ × List ℕ) × ℝ) (he : e ∈ st.trans_rates) :
    e ∈ (processSite cfg st pos).trans_rates := by
  rw [processSite]
  exact foldl_dirs_rates_sub cfg pos _ _ e (List.mem_cons_of_mem _ he)

theorem foldl_sites_rates_mem (cfg : Cfg) :
    ∀ sites : List (List ℕ), ∀ st : BuildState,
    ∀ e ∈ (sites.foldl (processSite cfg) st).trans_rates,
      e ∈ st.trans_rates ∨ ∃ pos ∈ sites, ProcWrite cfg pos e := by
  intro sites
  induction sites with
  | nil => intro st e he; exact Or.inl he
  | cons p ps ih =>
    intro st e he
    rw [List.foldl_cons] at he
    rcases ih _ e he with h | h
    · rcases processSite_rates_mem cfg st p e h with h2 | h2
      · exact Or.inl h2
      · exact Or.inr ⟨p, List.mem_cons_self p ps, h2⟩
    · obtain ⟨q, hq, hw⟩ := h
      exact Or.inr ⟨q, List.mem_cons_of_mem p hq, hw⟩

theorem foldl_sites_energies_mem (cfg : Cfg) :
    ∀ sites : List (List ℕ), ∀ st : BuildState,
    ∀ e ∈ (sites.foldl (processSite cfg) st).energies,
      e ∈ st.energies ∨ EnergyWrite cfg e := by
  intro sites
  induction sites with
  | nil => intro st e he; exact Or.inl he
  | cons p ps ih =>
    intro st e he
    rw [List.foldl_cons] at he
    rcases ih _ e he with h | h
    · exact processSite_energies_mem cfg st p e h
    · exact Or.inr h

theorem foldl_sites_rates_sub (cfg : Cfg) :
    ∀ sites : List (List ℕ), ∀ st : BuildState, ∀ e ∈ st.trans_rates,
      e ∈ (sites.foldl (processSite cfg) st).trans_rates := by
  intro sites
  induction sites with
  | nil => intro st e he; exact he
  | cons p ps ih =>
    intro st e he
    exact ih _ e (processSite_rates_sub cfg st p e he)

/-- Every entry of the final rate table is some site's write. -/
theorem finalState_rates_mem (cfg : Cfg) (e : (List ℕ × List ℕ) × ℝ)
    (he : e ∈ (finalState cfg).trans_rates) :
    ∃ pos ∈ enumSites cfg.L cfg.D, ProcWrite cfg pos e := by
  rcases foldl_sites_rates_mem cfg _ initState e he with h | h
  · simp [initState] at h
  · exact h

/-- Every entry of the final energy table is a generate-mode write. -/
theorem finalState_energies_mem (cfg : Cfg) (e : EKey × ℝ)
    (he : e ∈ (finalState cfg).energies) : EnergyWrite cfg e := by
  rcases foldl_sites_energies_mem cfg _ initState e he with h | h
  · simp [initState] at h
  · exact h

theorem perturb_length (a : ℕ) (plus : Bool) :
    ∀ k pos, (perturb a plus k pos).length = pos.length := by
  intro k pos
  induction pos generalizing k with
  | nil => rfl
  | cons v vs ih => simp [perturb, ih]

theorem perturb_getD (a : ℕ) (plus : Bool) :
    ∀ pos k0 k, k < pos.length →
      (perturb a plus k0 pos).getD k 0 =
        if k0 + k = a then rawStep (pos.getD k 0) plus else pos.getD k 0 := by
  intro pos
  induction pos with
  | nil => intro k0 k h; simp at h
  | cons v vs ih =>
    intro k0 k h
    match k with
    | 0 => simp [perturb]
    | k + 1 =>
      simp only [perturb, List.getD_cons_succ]
      rw [ih (k0 + 1) k (by simpa using h)]
      have heq : k0 + 1 + k = k0 + (k + 1) := by omega
      rw [heq]

theorem getD_map_lt (f : ℕ → ℕ) (l : List ℕ) (k : ℕ) (h : k < l.length) :
    (l.map f).getD k 0 = f (l.getD k 0) := by
  rw [List.getD_eq_getElem l 0 h,
    List.getD_eq_getElem (l.map f) 0 (by simpa using h), List.getElem_map]

theorem validSite_iff_getD (L : ℕ) (l : List ℕ) :
    validSite L l ↔ ∀ k, k < l.length → 1 ≤ l.getD k 0 ∧ l.getD k 0 ≤ L := by
  constructor
  · intro h k hk
    rw [List.getD_eq_getElem l 0 hk]
    exact h _ (List.getElem_mem hk)
  · intro h x hx
    obtain ⟨k, hk, rfl⟩ := List.mem_iff_getElem.mp hx
    have h2 := h k hk
    rwa [List.getD_eq_getElem l 0 hk] at h2

theorem neighborCoord_length (cfg : Cfg) (pos : List ℕ) (j : ℕ) :
    (neighborCoord cfg pos j).length = pos.length := by
  rw [neighborCoord]
  split
  · rw [List.length_map, perturb_length]
  · rw [perturb_length]

theorem neighborCoord_getD_open (cfg : Cfg) (pos : List ℕ) (j k : ℕ)
    (hpb : cfg.pbcheck = false) (hk : k < pos.length) :
    (neighborCoord cfg pos j).getD k 0 =
      if k = j / 2 then rawStep (pos.getD k 0) (j % 2 == 0) else pos.getD k 0 := by
  rw [neighborCoord, hpb]
  show (perturb (j / 2) (j % 2 == 0) 0 pos).getD k 0 = _
  rw [perturb_getD _ _ pos 0 k hk, Nat.zero_add]

theorem neighborCoord_getD_pb (cfg : Cfg) (pos : List ℕ) (j k : ℕ)
    (hpb : cfg.pbcheck = true) (hk : k < pos.length) :
    (neighborCoord cfg pos j).getD k 0 =
      wrapVal cfg.L
        (if k = j / 2 then rawStep (pos.getD k 0) (j % 2 == 0) else pos.getD k 0) := by
  rw [neighborCoord, hpb]
  show ((perturb (j / 2) (j % 2 == 0) 0 pos).map (wrapVal cfg.L)).getD k 0 = _
  rw [getD_map_lt _ _ k (by rw [perturb_length]; exact hk),
    perturb_getD _ _ pos 0 k hk, Nat.zero_add]

theorem rawStep_ne_self (v : ℕ) (h1 : 1 ≤ v) (plus : Bool) :
    rawStep v plus ≠ v := by
  cases plus <;> simp [rawStep] <;> omega

theorem wrapVal_rawStep_ne (L v : ℕ) (h1 : 1 ≤ v) (h2 : v ≤ L) (hL : 2 ≤ L)
    (plus : Bool) : wrapVal L (rawStep v plus) ≠ v := by
  cases plus <;> simp only [rawStep, wrapVal, Bool.false_eq_true, if_false,
    if_true] <;> split_ifs <;> omega

/-- Every enumerated position is a lattice site of length `D`. -/
theorem enumSites_site (L D : ℕ) (hL : 1 ≤ L) (A : List ℕ)
    (hA : A ∈ enumSites L D) : validSite L A ∧ A.length = D := by
  rw [enumSites_eq L D hL] at hA
  obtain ⟨i, _, rfl⟩ := List.mem_map.mp hA
  exact ⟨fun x hx => posOf_mem_bounds L hL D i x hx, posOf_length L D i⟩

/-- Under open boundaries, or periodic boundaries with `L ≥ 2`, no
neighbor of a site coincides with the site itself. -/
theorem neighborCoord_ne_self (cfg : Cfg) (pos : List ℕ) (j : ℕ)
    (hpos : validSite cfg.L pos) (hlen : pos.length = cfg.D)
    (hj : j < 2 * cfg.D) (h2 : cfg.pbcheck = false ∨ 2 ≤ cfg.L) :
    neighborCoord cfg pos j ≠ pos := by
  intro heq
  have hk : j / 2 < pos.length := by omega
  have hv := (validSite_iff_getD _ _).mp hpos (j / 2) hk
  have hgd := congrArg (fun l => l.getD (j / 2) 0) heq
  simp only at hgd
  cases hpb : cfg.pbcheck with
  | false =>
    rw [neighborCoord_getD_open cfg pos j (j / 2) hpb hk, if_pos rfl] at hgd
    exact rawStep_ne_self _ hv.1 _ hgd
  | true =>
    have hL2 : 2 ≤ cfg.L := by
      rcases h2 with h | h
      · rw [hpb] at h; exact absurd h (by simp)
      · exact h
    rw [neighborCoord_getD_pb cfg pos j (j / 2) hpb hk, if_pos rfl] at hgd
    exact wrapVal_rawStep_ne cfg.L _ hv.1 hv.2 hL2 _ hgd

/-- An invalid direction (necessarily under open boundaries) produces a
coordinate that is not a lattice site. -/
theorem invalid_nn_not_site (cfg : Cfg) (pos : List ℕ) (j : ℕ)
    (hlen : pos.length = cfg.D) (hj : j < 2 * cfg.D)
    (hv : validDir cfg.L cfg.pbcheck pos j = false) :
    ¬ validSite cfg.L (neighborCoord cfg pos j) := by
  rw [validDir, Bool.or_eq_false_iff] at hv
  obtain ⟨hraw, hpb⟩ := hv
  intro hsite
  have hk : j / 2 < pos.length := by omega
  have hnn := (validSite_iff_getD _ _).mp hsite (j / 2)
    (by rw [neighborCoord_length]; exact hk)
  rw [neighborCoord_getD_open cfg pos j (j / 2) hpb hk, if_pos rfl] at hnn
  rw [Bool.and_eq_false_iff] at hraw
  rcases hraw with h | h <;> rw [decide_eq_false_iff_not] at h <;> omega

/-- A valid direction under open boundaries targets a lattice site. -/
theorem valid_nn_site_open (cfg : Cfg) (pos : List ℕ) (j : ℕ)
    (hpb : cfg.pbcheck = false) (hpos : validSite cfg.L pos)
    (hlen : pos.length = cfg.D) (hj : j < 2 * cfg.D)
    (hv : validDir cfg.L cfg.pbcheck pos j = true) :
    validSite cfg.L (neighborCoord cfg pos j) := by
  rw [validSite_iff_getD]
  intro k hk'
  have hk : k < pos.length := by rwa [neighborCoord_length] at hk'
  rw [neighborCoord_getD_open cfg pos j k hpb hk]
  by_cases hka : k = j / 2
  · rw [if_pos hka]
    rw [validDir, hpb, Bool.or_false, Bool.and_eq_true,
      decide_eq_true_eq, decide_eq_true_eq] at hv
    rw [hka]
    omega
  · rw [if_neg hka]
    exact (validSite_iff_getD _ _).mp hpos k hk

theorem foldl_dirs_fwd_mem (cfg : Cfg) (pos : List ℕ) :
    ∀ js : List ℕ, ∀ st : BuildState, ∀ j ∈ js,
      validDir cfg.L cfg.pbcheck pos j = true →
      ((pos, neighborCoord cfg pos j),
        Find_Rate cfg.beta (Find_Energy cfg.E_0 pos)
          (Find_Energy cfg.E_0 (neighborCoord cfg pos j)) cfg.Gamma_0)
        ∈ (js.foldl (processDir cfg pos) st).trans_rates := by
  intro js
  induction js with
  | nil => intro st j hj _; simp at hj
  | cons k ks ih =>
    intro st j hj hv
    rcases List.mem_cons.mp hj with h | h
    · subst h
      rw [List.foldl_cons]
      refine foldl_dirs_rates_sub cfg pos ks _ _ ?_
      simp only [processDir, if_pos hv]
      exact List.mem_cons_of_mem _ (List.mem_cons_self _ _)
    · rw [List.foldl_cons]
      exact ih _ j h hv

theorem processSite_self_mem (cfg : Cfg) (st : BuildState) (pos : List ℕ) :
    ((pos, pos), (0 : ℝ)) ∈ (processSite cfg st pos).trans_rates := by
  rw [processSite]
  exact foldl_dirs_rates_sub cfg pos _ _ _ (List.mem_cons_self _ _)

theorem processSite_fwd_mem (cfg : Cfg) (st : BuildState) (pos : List ℕ)
    (j : ℕ) (hj : j < 2 * cfg.D)
    (hv : validDir cfg.L cfg.pbcheck pos j = true) :
    ((pos, neighborCoord cfg pos j),
      Find_Rate cfg.beta (Find_Energy cfg.E_0 pos)
        (Find_Energy cfg.E_0 (neighborCoord cfg pos j)) cfg.Gamma_0)
      ∈ (processSite cfg st pos).trans_rates := by
  rw [processSite]
  exact foldl_dirs_fwd_mem cfg pos _ _ j (List.mem_range.mpr hj) hv

theorem finalState_mem_of_site (cfg : Cfg) (A : List ℕ)
    (hA : A ∈ enumSites cfg.L cfg.D) (e : (List ℕ × List ℕ) × ℝ)
    (h : ∀ st, e ∈ (processSite cfg st A).trans_rates) :
    e ∈ (finalState cfg).trans_rates := by
  obtain ⟨l1, l2, hsplit⟩ := List.append_of_mem hA
  rw [finalState, hsplit, List.foldl_append, List.foldl_cons]
  exact foldl_sites_rates_sub cfg l2 _ e (h _)

/-- Counterexample to claim C3 as stated: for `L = 1` under periodic
boundaries both wrapped neighbors of the unique site `"1"` are the site
itself, so the valid-direction writes overwrite the self-loop entry
`"1->1"` with `Gamma_0 = 1`; the recorded self-loop rate is `1`, not
`0` (here `beta = 0`, `E_scale = 1`, `Gamma_0 = 1`). -/
theorem C3_self_loop_cex :
    dget ([1], [1]) (finalState ⟨1, 1, true, 0, 1, 1⟩).trans_rates = some 1 ∧
    dget ([1], [1]) (finalState ⟨1, 1, true, 0, 1, 1⟩).trans_rates ≠ some 0 := by
  have he : enumSites 1 1 = [[1]] := by decide
  have h : dget ([1], [1]) (finalState ⟨1, 1, true, 0, 1, 1⟩).trans_rates
      = some 1 := by
    rw [finalState]
    norm_num [he, processSite, processDir, initState, dset, dget,
      List.range_succ, validDir, neighborCoord, perturb, wrapVal, rawStep,
      Find_Rate, Find_Energy, Real.exp_zero]
  refine ⟨h, ?_⟩
  rw [h]
  intro hc
  rw [Option.some.injEq] at hc
  norm_num at hc

/-- Claim C3, amended: excluding the degenerate periodic `L = 1` lattice
(under open boundaries, or periodic boundaries with `L ≥ 2`), the
self-loop rate recorded for every enumerated site is `0.0` in the final
rate table: it is initialized to zero and never assigned a nonzero
value by any later step. -/
theorem C3_self_loop (cfg : Cfg) (hL : 1 ≤ cfg.L)
    (h2 : cfg.pbcheck = false ∨ 2 ≤ cfg.L) (A : List ℕ)
    (hA : A ∈ enumSites cfg.L cfg.D) :
    dget (A, A) (finalState cfg).trans_rates = some 0 := by
  apply dget_eq_of_value
  · intro e he hkey
    obtain ⟨pos, hpos, hw⟩ := finalState_rates_mem cfg e he
    obtain ⟨hvs, hlen⟩ := enumSites_site cfg.L cfg.D hL pos hpos
    rcases hw with h | ⟨j, hj, hcase⟩
    · rw [h]
    · have hne := neighborCoord_ne_self cfg pos j hvs hlen hj h2
      rcases hcase with ⟨hv, h | h⟩ | ⟨hv, h | h⟩
      · simp only [h, Prod.mk.injEq] at hkey
        exact absurd (hkey.2.trans hkey.1.symm) hne
      · simp only [h, Prod.mk.injEq] at hkey
        exact absurd (hkey.1.trans hkey.2.symm) hne
      · rw [h]
      · rw [h]
  · exact ⟨((A, A), 0),
      finalState_mem_of_site cfg A hA _ (fun st => processSite_self_mem cfg st A),
      rfl⟩

/-- Witness for the amended C3: `L = 2`, `D = 1`, open boundaries. -/
theorem C3_self_loop_witness :
    dget ([1], [1]) (finalState ⟨2, 1, false, 0, 1, 1⟩).trans_rates = some 0 :=
  C3_self_loop ⟨2, 1, false, 0, 1, 1⟩ (by norm_num) (Or.inl rfl) [1] (by decide)

/-- Claim C8: in generate mode, every energy recorded under a site key
equals `E_scale × (sum of the coordinate components)` — every write to
a site key carries this value, so recomputing or re-assigning the
energy of the same key always yields the identical value (idempotence),
and in particular the final looked-up energy of every site equals it. -/
theorem C8_energy (cfg : Cfg) :
    (∀ e ∈ (finalState cfg).energies, ∀ c : List ℕ, e.1 = Sum.inl c →
      e.2 = cfg.E_0 * (c.sum : ℝ)) ∧
    (∀ A v, dget (Sum.inl A) (finalState cfg).energies = some v →
      v = cfg.E_0 * (A.sum : ℝ)) := by
  have hmain : ∀ e ∈ (finalState cfg).energies, ∀ c : List ℕ, e.1 = Sum.inl c →
      e.2 = cfg.E_0 * (c.sum : ℝ) := by
    intro e he c hc
    rcases finalState_energies_mem cfg e he with ⟨c2, h⟩ | ⟨k, h⟩
    · rw [h] at hc
      simp only [Sum.inl.injEq] at hc
      rw [h, hc]
      rfl
    · rw [h] at hc
      simp at hc
  refine ⟨hmain, fun A v hv => ?_⟩
  exact hmain _ (dget_some_mem _ _ _ hv) A rfl

/-- Witness for C8: `L = 2`, `D = 1`, open boundaries, `E_scale = 1`;
the final energy of site `"1"` is `1 = E_scale × 1`. -/
theorem C8_energy_witness :
    dget (Sum.inl [1]) (finalState ⟨2, 1, false, 0, 1, 1⟩).energies = some 1 ∧
    (1 : ℝ) = (⟨2, 1, false, 0, 1, 1⟩ : Cfg).E_0 * (([1] : List ℕ).sum : ℝ) := by
  have he : enumSites 2 1 = [[1], [2]] := by decide
  have h : dget (Sum.inl [1]) (finalState ⟨2, 1, false, 0, 1, 1⟩).energies
      = some 1 := by
    rw [finalState]
    norm_num [he, processSite, processDir, initState, dset, dget,
      List.range_succ, validDir, neighborCoord, perturb, wrapVal, rawStep,
      Find_Energy]
  exact ⟨h, (C8_energy ⟨2, 1, false, 0, 1, 1⟩).2 [1] 1 h⟩

/-- Claim C10: for every ordered pair `(A, B)` of (distinct) valid
adjacent sites, the final rate-table entry for the directed edge
`A -> B` is exactly `Find_Rate(beta, E_A, E_B, Gamma_0)` with
`E_X = Find_Energy(E_scale, X)`: the forward write while processing
`A` and the overwriting reverse write while processing `B` carry the
identical value, so the finished table does not depend on which write
happened last. -/
theorem C10_rate_table (cfg : Cfg) (hL : 1 ≤ cfg.L) (A B : List ℕ)
    (hA : A ∈ enumSites cfg.L cfg.D) (hB : validSite cfg.L B) (hAB : A ≠ B)
    (hadj : adjacentTo cfg A B) :
    dget (A, B) (finalState cfg).trans_rates =
      some (Find_Rate cfg.beta (Find_Energy cfg.E_0 A)
        (Find_Energy cfg.E_0 B) cfg.Gamma_0) := by
  obtain ⟨hAsite, hAlen⟩ := enumSites_site cfg.L cfg.D hL A hA
  obtain ⟨j0, hj0, hv0, hnn0⟩ := hadj
  apply dget_eq_of_value
  · intro e he hkey
    obtain ⟨pos, hpos, hw⟩ := finalState_rates_mem cfg e he
    obtain ⟨hvs, hlen⟩ := enumSites_site cfg.L cfg.D hL pos hpos
    rcases hw with h | ⟨j, hj, hcase⟩
    · simp only [h, Prod.mk.injEq] at hkey
      exact absurd (hkey.1.symm.trans hkey.2) hAB
    · rcases hcase with ⟨hv, h | h⟩ | ⟨hv, h | h⟩
      · simp only [h, Prod.mk.injEq] at hkey
        obtain ⟨h1, h2⟩ := hkey
        simp only [h]
        rw [h2, h1]
      · simp only [h, Prod.mk.injEq] at hkey
        obtain ⟨h1, h2⟩ := hkey
        simp only [h]
        rw [h1, h2]
      · simp only [h, Prod.mk.injEq] at hkey
        refine absurd ?_ (invalid_nn_not_site cfg pos j hlen hj hv)
        rw [hkey.2]
        exact hB
      · simp only [h, Prod.mk.injEq] at hkey
        refine absurd ?_ (invalid_nn_not_site cfg pos j hlen hj hv)
        rw [hkey.1]
        exact hAsite
  · refine ⟨((A, B), Find_Rate cfg.beta (Find_Energy cfg.E_0 A)
      (Find_Energy cfg.E_0 B) cfg.Gamma_0), ?_, rfl⟩
    refine finalState_mem_of_site cfg A hA _ (fun st => ?_)
    have h := processSite_fwd_mem cfg st A j0 hj0 hv0
    rwa [hnn0] at h

/-- Witness for C10: the edge `"1" -> "2"` on the open `L = 2`, `D = 1`
lattice. -/
theorem C10_rate_table_witness :
    dget ([1], [2]) (finalState ⟨2, 1, false, 0, 1, 1⟩).trans_rates =
      some (Find_Rate 0 (Find_Energy 1 [1]) (Find_Energy 1 [2]) 1) :=
  C10_rate_table ⟨2, 1, false, 0, 1, 1⟩ (by norm_num) [1] [2] (by decide)
    (by decide) (by decide) ⟨0, by norm_num, by decide, by decide⟩

theorem mapM_cons_error {α β : Type} (f : α → Except Unit β) (a : α)
    (l : List α) (h : f a = Except.error ()) :
    (a :: l).mapM f = Except.error () := by
  rw [List.mapM_cons, h]
  rfl

theorem mapM_ok_map {α β : Type} (f : α → Except Unit β) (g : α → β) :
    ∀ l : List α, (∀ a ∈ l, f a = Except.ok (g a)) →
      l.mapM f = Except.ok (l.map g) := by
  intro l
  induction l with
  | nil => intro _; rfl
  | cons a l ih =>
    intro h
    rw [List.mapM_cons, h a (List.mem_cons_self a l),
      ih (fun x hx => h x (List.mem_cons_of_mem a hx))]
    rfl

/-- Counterexample to claim C4 as stated: a negative lattice size is not
caught (`Check_Args` only tests `lattice_size == 0`), so the run with
`L = -1 ≤ 0`, `D = 1` passes the parameter check and produces (empty)
output instead of failing. -/
theorem C4_param_check_cex :
    ((-1 : ℤ) ≤ 0) ∧ checkArgsExits (-1) 1 = false ∧
    runProgram (-1) 1 1 false 0 1 1 = Except.ok [] := by
  refine ⟨by norm_num, by decide, ?_⟩
  rfl

/-- Claim C4, amended: the fatal parameter check is `L = 0 ∨ D ≤ 0`,
not `L ≤ 0 ∨ D ≤ 0`: exactly these inputs make `Check_Args` exit, and
for them the program stops before any lattice computation and produces
no output. -/
theorem C4_param_check (L D : ℤ) (mm : ℕ) (pb : Bool) (beta E_0 Gamma_0 : ℝ) :
    (checkArgsExits L D = true ↔ (L = 0 ∨ D ≤ 0)) ∧
    ((L = 0 ∨ D ≤ 0) →
      runProgram L D mm pb beta E_0 Gamma_0 = Except.error ()) := by
  have hiff : checkArgsExits L D = true ↔ (L = 0 ∨ D ≤ 0) := by
    simp [checkArgsExits]
  refine ⟨hiff, fun h => ?_⟩
  rw [runProgram, if_pos (hiff.mpr h)]

/-- Witness for the amended C4 at `L = 0`, `D = 5`. -/
theorem C4_param_check_witness :
    (checkArgsExits 0 5 = true ↔ ((0 : ℤ) = 0 ∨ (5 : ℤ) ≤ 0)) ∧
    runProgram 0 5 1 false 0 1 1 = Except.error () :=
  ⟨(C4_param_check 0 5 1 false 0 1 1).1,
   (C4_param_check 0 5 1 false 0 1 1).2 (Or.inl rfl)⟩

/-- Claim C6: on the isolated site `"1"` of the open `L = 1`, `D = 1`
lattice the total outgoing rate is exactly `0`, and for any
`max_moment ≥ 1` the moment computation hits the division
`1./rate_total` with a zero divisor and raises (modelled as
`Except.error`, Python's uncaught `ZeroDivisionError`) instead of
emitting a moment value; the network serialization aborts likewise. -/
theorem C6_degenerate_site (mm : ℕ) (hmm : 1 ≤ mm) :
    rateTotal ⟨1, 1, false, 0, 1, 1⟩ [1] = 0 ∧
    siteMoments mm (rateTotal ⟨1, 1, false, 0, 1, 1⟩ [1]) = Except.error () ∧
    networkRecords ⟨1, 1, false, 0, 1, 1⟩ mm = Except.error () := by
  have he : enumSites 1 1 = [[1]] := by decide
  have hrt : rateTotal ⟨1, 1, false, 0, 1, 1⟩ [1] = 0 := by
    rw [rateTotal, finalState]
    norm_num [he, neighborsOf, processSite, processDir, initState, dset, dget,
      List.range_succ, validDir, neighborCoord, perturb, wrapVal, rawStep]
  obtain ⟨m, rfl⟩ : ∃ m, mm = m + 1 := ⟨mm - 1, by omega⟩
  have hsm : siteMoments (m + 1) (0 : ℝ) = Except.error () := by
    rw [siteMoments, List.range'_succ]
    apply mapM_cons_error
    rw [pyDiv, if_pos rfl]
    rfl
  refine ⟨hrt, by rw [hrt]; exact hsm, ?_⟩
  rw [networkRecords, he]
  apply mapM_cons_error
  rw [siteRecordOf, hrt, hsm]
  rfl

/-- Witness for C6 at `max_moment = 1`. -/
theorem C6_degenerate_site_witness :
    rateTotal ⟨1, 1, false, 0, 1, 1⟩ [1] = 0 ∧
    networkRecords ⟨1, 1, false, 0, 1, 1⟩ 1 = Except.error () :=
  ⟨(C6_degenerate_site 1 (le_refl 1)).1, (C6_degenerate_site 1 (le_refl 1)).2.2⟩

theorem countP_validDir_pairs (L : ℕ) (pb : Bool) (pos : List ℕ) :
    ∀ D : ℕ, (List.range (2 * D)).countP (validDir L pb pos) =
      ((List.range D).map fun a =>
        ((if validDir L pb pos (2 * a) then 1 else 0) +
          (if validDir L pb pos (2 * a + 1) then 1 else 0) : ℕ)).sum := by
  intro D
  induction D with
  | zero => rfl
  | succ D ih =>
    have h2 : 2 * (D + 1) = (2 * D + 1) + 1 := by omega
    rw [h2, List.range_succ, List.range_succ, List.countP_append,
      List.countP_append, ih, List.range_succ, List.map_append, List.sum_append]
    simp only [List.countP_cons, List.countP_nil, List.map_cons, List.map_nil,
      List.sum_cons, List.sum_nil]
    omega

/-- Claim C7: under periodic boundaries a neighbor component that would
become `0` wraps to `L` and one that would become `L+1` wraps to `1`,
and every site has all `2D` neighbor directions valid; under open
boundaries with `L > 1`, a corner site (every coordinate `1` or `L`)
has exactly `D` of its `2D` directions valid. -/
theorem C7_boundaries :
    (∀ L : ℕ, wrapVal L 0 = L ∧ wrapVal L (L + 1) = 1) ∧
    (∀ (L D : ℕ) (pos : List ℕ),
      (List.range (2 * D)).countP (validDir L true pos) = 2 * D) ∧
    (∀ (L D : ℕ) (pos : List ℕ), 2 ≤ L → pos.length = D →
      (∀ x ∈ pos, x = 1 ∨ x = L) →
      (List.range (2 * D)).countP (validDir L false pos) = D) := by
  refine ⟨?_, ?_, ?_⟩
  · intro L
    constructor
    · simp [wrapVal]
    · simp [wrapVal]
  · intro L D pos
    have h : (List.range (2 * D)).countP (validDir L true pos)
        = (List.range (2 * D)).length :=
      List.countP_eq_length.mpr (fun j _ => by simp [validDir])
    rw [h, List.length_range]
  · intro L D pos hL hlen hcorner
    rw [countP_validDir_pairs]
    have hmap : ∀ a ∈ List.range D,
        ((if validDir L false pos (2 * a) then 1 else 0) +
          (if validDir L false pos (2 * a + 1) then 1 else 0) : ℕ)
          = (fun _ => (1 : ℕ)) a := by
      intro a ha
      have haD : a < D := List.mem_range.mp ha
      have hak : a < pos.length := by omega
      have hva : pos.getD a 0 = 1 ∨ pos.getD a 0 = L := by
        rw [List.getD_eq_getElem pos 0 hak]
        exact hcorner _ (List.getElem_mem hak)
      have hj2 : 2 * a / 2 = a := by omega
      have hj2m : 2 * a % 2 = 0 := by omega
      have hj3 : (2 * a + 1) / 2 = a := by omega
      have hj3m : (2 * a + 1) % 2 = 1 := by omega
      rcases hva with hv | hv <;>
        simp only [validDir, hj2, hj2m, hj3, hj3m, rawStep, hv, Bool.or_false] <;>
        norm_num <;>
        omega
    rw [List.map_congr_left hmap]
    simp

/-- Witness for C7 at `L = 3`, `D = 2`, corner site `(1, 3)`. -/
theorem C7_boundaries_witness :
    (wrapVal 3 0 = 3 ∧ wrapVal 3 (3 + 1) = 1) ∧
    (List.range (2 * 2)).countP (validDir 3 true [1, 3]) = 2 * 2 ∧
    (List.range (2 * 2)).countP (validDir 3 false [1, 3]) = 2 :=
  ⟨C7_boundaries.1 3, C7_boundaries.2.1 3 2 [1, 3],
   C7_boundaries.2.2 3 2 [1, 3] (by norm_num) rfl (by decide)⟩

/-- The moment list written for a site with nonzero total rate. -/
theorem siteMoments_of_pos (mm : ℕ) (r : ℝ) (hr : r ≠ 0) :
    siteMoments mm r =
      Except.ok ((List.range' 1 mm).map fun n => (n.factorial : ℝ) / r ^ n) := by
  rw [siteMoments]
  apply mapM_ok_map
  intro n _
  rw [pyDiv, if_neg hr]
  show Except.ok (Exponential_Moment n (1 / r)) = _
  rw [Exponential_Moment, one_div, inv_pow, ← div_eq_mul_inv]

theorem sum_filter_of_zero {α : Type} (p : α → Bool) (f : α → ℝ) :
    ∀ l : List α, (∀ x ∈ l, p x = false → f x = 0) →
      (l.map f).sum = ((l.filter p).map f).sum := by
  intro l
  induction l with
  | nil => intro _; rfl
  | cons a l ih =>
    intro h
    rw [List.map_cons, List.sum_cons, List.filter_cons]
    by_cases hp : p a
    · rw [if_pos hp, List.map_cons, List.sum_cons,
        ih fun x hx => h x (List.mem_cons_of_mem a hx)]
    · rw [if_neg hp, h a (List.mem_cons_self a l) (by simpa using hp), zero_add,
        ih fun x hx => h x (List.mem_cons_of_mem a hx)]

/-- The final rate read back along an invalid direction is zero (whether
or not the key was ever written). -/
theorem invalid_edge_zero (cfg : Cfg) (hL : 1 ≤ cfg.L) (A : List ℕ)
    (hA : A ∈ enumSites cfg.L cfg.D) (j : ℕ) (hj : j < 2 * cfg.D)
    (hv : validDir cfg.L cfg.pbcheck A j = false) :
    (dget (A, neighborCoord cfg A j) (finalState cfg).trans_rates).getD 0
      = 0 := by
  obtain ⟨hAs, hAlen⟩ := enumSites_site cfg.L cfg.D hL A hA
  have hns : ¬ validSite cfg.L (neighborCoord cfg A j) :=
    invalid_nn_not_site cfg A j hAlen hj hv
  have hpb : cfg.pbcheck = false := by
    rw [validDir, Bool.or_eq_false_iff] at hv
    exact hv.2
  cases hd : dget (A, neighborCoord cfg A j) (finalState cfg).trans_rates with
  | none => rfl
  | some v =>
    have hmem := dget_some_mem _ _ _ hd
    obtain ⟨pos, hpos, hw⟩ := finalState_rates_mem cfg _ hmem
    obtain ⟨hvs, hlen⟩ := enumSites_site cfg.L cfg.D hL pos hpos
    rcases hw with h | ⟨j2, hj2, hcase⟩
    · simp only [Prod.mk.injEq] at h
      simp [h.2]
    · rcases hcase with ⟨hv2, h | h⟩ | ⟨hv2, h | h⟩
      · simp only [Prod.mk.injEq] at h
        refine absurd ?_ hns
        rw [h.1.2]
        exact valid_nn_site_open cfg pos j2 hpb hvs hlen hj2 hv2
      · simp only [Prod.mk.injEq] at h
        refine absurd ?_ hns
        rw [h.1.2]
        exact hvs
      · simp only [Prod.mk.injEq] at h
        simp [h.2]
      · simp only [Prod.mk.injEq] at h
        simp [h.2]

/-- Claim C5, amended: away from the degenerate periodic `L = 1`
lattice, the total outgoing rate accumulated for a site equals the sum
of the final rates of its valid neighbor edges only — the self-loop is
excluded (indeed no recorded neighbor coincides with the site, so the
spec-worded self-loop-excluded sum `validNonSelfTotal` agrees) — and
for total rate `r > 0` the written `n`-th waiting-time moment equals
`n!/r^n` for every `n` from `1` to `max_moment`. -/
theorem C5_total_rate (cfg : Cfg) (hL : 1 ≤ cfg.L)
    (h2 : cfg.pbcheck = false ∨ 2 ≤ cfg.L) (A : List ℕ)
    (hA : A ∈ enumSites cfg.L cfg.D) :
    rateTotal cfg A = validNonSelfTotal cfg A ∧
    (∀ j, j < 2 * cfg.D → neighborCoord cfg A j ≠ A) ∧
    (∀ (mm : ℕ) (r : ℝ), 0 < r →
      siteMoments mm r =
        Except.ok ((List.range' 1 mm).map fun n => (n.factorial : ℝ) / r ^ n)) := by
  obtain ⟨hAs, hAlen⟩ := enumSites_site cfg.L cfg.D hL A hA
  have hns : ∀ j, j < 2 * cfg.D → neighborCoord cfg A j ≠ A := fun j hj =>
    neighborCoord_ne_self cfg A j hAs hAlen hj h2
  refine ⟨?_, hns, fun mm r hr => siteMoments_of_pos mm r (ne_of_gt hr)⟩
  have hmm : rateTotal cfg A = ((List.range (2 * cfg.D)).map fun j =>
      (dget (A, neighborCoord cfg A j) (finalState cfg).trans_rates).getD 0).sum := by
    rw [rateTotal, neighborsOf, List.map_map]
    rfl
  have hfl : (List.range (2 * cfg.D)).filter
      (fun j => validDir cfg.L cfg.pbcheck A j &&
        !(neighborCoord cfg A j == A)) =
      (List.range (2 * cfg.D)).filter (fun j => validDir cfg.L cfg.pbcheck A j) := by
    apply List.filter_congr
    intro j hj
    have hne := hns j (List.mem_range.mp hj)
    simp [hne]
  rw [hmm, validNonSelfTotal, hfl]
  exact sum_filter_of_zero _ _ _ fun j hj hvf =>
    invalid_edge_zero cfg hL A hA j (List.mem_range.mp hj) hvf

/-- Counterexample to claim C5 as stated: on the periodic `L = 1`,
`D = 1` lattice (`beta = 0`, `Gamma_0 = 1`) both valid directions of
site `"1"` point back to `"1"` itself, so the accumulated total rate
`2` consists entirely of self-loop entries, while the spec's
self-loop-excluded sum is `0`. -/
theorem C5_total_rate_cex :
    rateTotal ⟨1, 1, true, 0, 1, 1⟩ [1] = 2 ∧
    validNonSelfTotal ⟨1, 1, true, 0, 1, 1⟩ [1] = 0 ∧
    rateTotal ⟨1, 1, true, 0, 1, 1⟩ [1] ≠
      validNonSelfTotal ⟨1, 1, true, 0, 1, 1⟩ [1] := by
  have he : enumSites 1 1 = [[1]] := by decide
  have hrt : rateTotal ⟨1, 1, true, 0, 1, 1⟩ [1] = 2 := by
    rw [rateTotal, finalState]
    norm_num [he, neighborsOf, processSite, processDir, initState, dset, dget,
      List.range_succ, validDir, neighborCoord, perturb, wrapVal, rawStep,
      Find_Rate, Find_Energy, Real.exp_zero]
  have hvn : validNonSelfTotal ⟨1, 1, true, 0, 1, 1⟩ [1] = 0 := by
    rw [validNonSelfTotal]
    norm_num [List.range_succ, validDir, neighborCoord, perturb, wrapVal,
      rawStep, List.filter]
  refine ⟨hrt, hvn, ?_⟩
  rw [hrt, hvn]
  norm_num

/-- Witness for the amended C5: site `"1"` of the open `L = 2`, `D = 1`
lattice, and the moment formula at `max_moment = 2`, `r = 1`. -/
theorem C5_total_rate_witness :
    rateTotal ⟨2, 1, false, 0, 1, 1⟩ [1] =
      validNonSelfTotal ⟨2, 1, false, 0, 1, 1⟩ [1] ∧
    siteMoments 2 (1 : ℝ) =
      Except.ok ((List.range' 1 2).map fun n => (n.factorial : ℝ) / (1 : ℝ) ^ n) :=
  ⟨(C5_total_rate ⟨2, 1, false, 0, 1, 1⟩ (by norm_num) (Or.inl rfl) [1]
      (by decide)).1,
   (C5_total_rate ⟨2, 1, false, 0, 1, 1⟩ (by norm_num) (Or.inl rfl) [1]
      (by decide)).2.2 2 1 (by norm_num)⟩

/-- Claim C9: for `L = 2`, `D = 1`, periodic boundaries, `beta = 0`,
`Gamma_0 = 1`, site `"1"` has two valid directions (direct and wrapped)
both pointing to `"2"`; they are kept as two distinct parallel entries
of the neighbor list (not summed into one edge), each carrying rate
`1.0` in the serialized record, both contribute to the total outgoing
rate `2.0`, and `moment_1 = 0.5`. -/
theorem C9_parallel_edges :
    neighborsOf ⟨2, 1, true, 0, 1, 1⟩ [1] = [[2], [2]] ∧
    (validDir 2 true [1] 0 = true ∧ validDir 2 true [1] 1 = true) ∧
    rateTotal ⟨2, 1, true, 0, 1, 1⟩ [1] = 2 ∧
    siteRecordOf ⟨2, 1, true, 0, 1, 1⟩ 1 [1] =
      Except.ok ⟨[1], [([2], 1), ([2], 1)], [1 / 2], [1]⟩ := by
  have he : enumSites 2 1 = [[1], [2]] := by decide
  have hnb : neighborsOf ⟨2, 1, true, 0, 1, 1⟩ [1] = [[2], [2]] := by decide
  have hdg : dget ([1], [2]) (finalState ⟨2, 1, true, 0, 1, 1⟩).trans_rates
      = some 1 := by
    rw [finalState]
    norm_num [enumSites, iterSites, step, stepFrom, List.replicate,
      processSite, processDir, initState, dset, dget,
      List.range_succ, validDir, neighborCoord, perturb, wrapVal, rawStep,
      Find_Rate, Find_Energy, Real.exp_zero]
  have hrt : rateTotal ⟨2, 1, true, 0, 1, 1⟩ [1] = 2 := by
    rw [rateTotal, hnb]
    norm_num [hdg]
  refine ⟨hnb, ⟨by decide, by decide⟩, hrt, ?_⟩
  rw [siteRecordOf, hrt, siteMoments_of_pos 1 2 (by norm_num)]
  have hr1 : List.range' 1 1 = [1] := rfl
  rw [hr1]
  norm_num [hnb, hdg, Nat.factorial, Except.map, List.filterMap_cons]

end Pathman

